import Mathlib

/-!
Shallow embedding of the two maintenance scripts of the beluga-ai
documentation repository: fix_mdx.py (HTML-entity decoding, repair of
fragmented fenced code blocks, removal of empty code blocks, JSX escaping,
frontmatter splitting) and scripts/fix-doc-links.py (link rewriting with
per-file read-error recovery).

Python strings are modelled as Lean String, documents as lists of lines,
a line being its list of characters (code points).  Python operations that
can raise (chr on an out-of-range code point, indexing split()[0]) are
modelled with Option.  Regular-expression substitutions of the source are
modelled by explicit scanners that reproduce re.sub semantics (leftmost
match, scanning resumes after the matched span, lookbehind inspects the
original subject); Python's str.strip / regex whitespace and digits are
modelled at their ASCII subset, which covers every character class these
scripts are applied to.
-/

namespace FixMdx

/-- A line of a document: its list of characters. -/
abbrev Line := List Char

/-- Whitespace as stripped by Python str.strip and matched by regex
whitespace in the scripts (ASCII subset). -/
def pyIsSpace (c : Char) : Bool :=
  c == ' ' || c == '\t' || c == '\n' || c == '\r' ||
  c == Char.ofNat 11 || c == Char.ofNat 12

/-- Python str.strip(): drop leading and trailing whitespace. -/
def pyStrip (cs : List Char) : List Char :=
  ((cs.dropWhile pyIsSpace).reverse.dropWhile pyIsSpace).reverse

/-- Does the list start with the given pattern? (str.startswith). -/
def startsWithL : List Char → List Char → Bool
  | [], _ => true
  | _ :: _, [] => false
  | p :: ps, c :: cs => p == c && startsWithL ps cs

/-- Index of the first occurrence of a pattern (str.find), none if absent. -/
def pyFind (pat : List Char) : List Char → Option Nat
  | [] => if startsWithL pat [] then some 0 else none
  | c :: rest =>
    if startsWithL pat (c :: rest) then some 0
    else (pyFind pat rest).map (· + 1)

/-- Substring containment (Python `in`). -/
def containsSub (pat cs : List Char) : Bool :=
  (pyFind pat cs).isSome

/-- Helper for splitting a character list into lines at newline characters. -/
def splitCons (c : Char) : List Line → List Line
  | [] => [[c]]
  | l :: ls => (c :: l) :: ls

/-- Python str.split with separator newline: list of lines. -/
def splitLinesL : List Char → List Line
  | [] => [[]]
  | c :: rest => if c = '\n' then [] :: splitLinesL rest else splitCons c (splitLinesL rest)

/-- Python str.join with separator newline. -/
def joinLinesL : List Line → List Char
  | [] => []
  | [l] => l
  | l :: l2 :: ls => l ++ '\n' :: joinLinesL (l2 :: ls)

/-- Accumulator loop for whitespace splitting (Python str.split()). -/
def splitWsGo (cur : List Char) : List Char → List (List Char)
  | [] => if cur.isEmpty then [] else [cur.reverse]
  | c :: rest =>
    if pyIsSpace c then
      if cur.isEmpty then splitWsGo [] rest else cur.reverse :: splitWsGo [] rest
    else splitWsGo (c :: cur) rest

/-- Python str.split() without arguments: split at whitespace runs,
dropping empty pieces. -/
def pySplitWs (cs : List Char) : List (List Char) :=
  splitWsGo [] cs

/-- Python str.replace pat rep: replace each non-overlapping occurrence,
left to right.  The Nat argument counts characters still to be skipped
after an accepted match (keeps the recursion structural). -/
def pyReplaceGo (pat rep : List Char) : Nat → List Char → List Char
  | _, [] => []
  | k+1, _ :: rest => pyReplaceGo pat rep k rest
  | 0, c :: rest =>
    if startsWithL pat (c :: rest) then
      rep ++ pyReplaceGo pat rep (pat.length - 1) rest
    else c :: pyReplaceGo pat rep 0 rest

/-- Python str.replace. -/
def pyReplace (pat rep cs : List Char) : List Char :=
  pyReplaceGo pat rep 0 cs

/-! ## Line classifiers of fix_mdx.py -/

/-- Identifier characters of the regex class [a-zA-Z0-9_]. -/
def identChar (c : Char) : Bool :=
  c.isAlpha || c.isDigit || c == '_'

/-- Regex ^\s*(//|/\*|\*/) : after leading whitespace, a comment marker. -/
def commentStart (lw : List Char) : Bool :=
  startsWithL "//".data lw || startsWithL "/*".data lw || startsWithL "*/".data lw

/-- Regex ^\s*KW\s : after leading whitespace the keyword, then one
whitespace character (lw is the line with leading whitespace dropped). -/
def kwThenWs (kw : List Char) (lw : List Char) : Bool :=
  startsWithL kw lw && ((lw.drop kw.length).head?.elim false pyIsSpace)

/-- Regex ^\s*[a-zA-Z_][a-zA-Z0-9_]*\s*:= (Go short declaration). -/
def identAssign (lw : List Char) : Bool :=
  match lw with
  | [] => false
  | c :: r =>
    if c.isAlpha || c == '_' then
      startsWithL ":=".data ((r.dropWhile identChar).dropWhile pyIsSpace)
    else false

/-- Regex ^\s*select\s*\{ . -/
def selectBrace (lw : List Char) : Bool :=
  startsWithL "select".data lw &&
  startsWithL "\x7b".data ((lw.drop 6).dropWhile pyIsSpace)

/-- is_code_continuation of fix_mdx.py: does a line look like code
continuing after a closing fence?  (The source's second parameter
prev_lines is never read and is omitted.) -/
def is_code_continuation (line : Line) : Bool :=
  let stripped := pyStrip line
  if stripped.isEmpty then false
  else
    let lw := line.dropWhile pyIsSpace
    commentStart lw ||
    stripped == "\x7d".data ||
    kwThenWs "return".data lw || kwThenWs "defer".data lw || kwThenWs "go".data lw ||
    identAssign lw ||
    selectBrace lw ||
    ((startsWithL "\t".data line || startsWithL "    ".data line) &&
      !(startsWithL "-".data stripped || startsWithL "*".data stripped ||
        startsWithL ">".data stripped))

/-- Markdown leading markers checked by is_markdown_text. -/
def mdStarts (stripped : List Char) : Bool :=
  startsWithL "#".data stripped || startsWithL ">".data stripped ||
  startsWithL "|".data stripped || startsWithL "-".data stripped ||
  startsWithL "1.".data stripped || startsWithL "2.".data stripped ||
  startsWithL "3.".data stripped || startsWithL "!".data stripped ||
  startsWithL "[".data stripped

/-- Regex ^\d+\.\s+\*\* : numbered list item followed by bold text. -/
def numberedBold (stripped : List Char) : Bool :=
  let ds := stripped.takeWhile Char.isDigit
  if ds.isEmpty then false
  else
    match stripped.drop ds.length with
    | '.' :: r2 =>
      let ws := r2.takeWhile pyIsSpace
      !ws.isEmpty && startsWithL "**".data (r2.drop ws.length)
    | _ => false

/-- Code-indicative substrings consulted by the prose check. -/
def codeSubstrings : List (List Char) :=
  ["\x7b\x7d".data, "()".data, ":=".data, "->".data, "\x7b\x7b".data, "\x7d\x7d".data]

/-- is_markdown_text of fix_mdx.py: is a line clearly markdown prose? -/
def is_markdown_text (line : Line) : Bool :=
  let stripped := pyStrip line
  if stripped.isEmpty then true
  else if mdStarts stripped then true
  else if startsWithL "**".data stripped || startsWithL "__".data stripped then true
  else if numberedBold stripped then true
  else if (pySplitWs stripped).length > 10 &&
          !(codeSubstrings.any (fun p => containsSub p stripped)) then true
  else false

/-! ## fix_fragmented_blocks: the fence-repair scanner -/

/-- Orphan lookahead of fix_fragmented_blocks (the inner while loop):
scan forward from the first non-blank line after a candidate closing
fence, accumulating orphaned code lines, and return the accumulated run
together with the unconsumed remainder.  acc is the orphan_code list
built so far; the "already has orphans" disjunct admits any non-blank
line once acc is non-empty. -/
def scanOrphans : List Line → List Line → List Line × List Line
  | acc, [] => (acc, [])
  | acc, l :: ls =>
    if startsWithL "#".data (pyStrip l) || startsWithL "```".data (pyStrip l) then
      (acc, l :: ls)
    else if is_markdown_text l then (acc, l :: ls)
    else if is_code_continuation l || (!acc.isEmpty && !(pyStrip l).isEmpty) then
      scanOrphans (acc ++ [l]) ls
    else (acc, l :: ls)

/-- A blank line (its stripped content is empty). -/
def isBlank (l : Line) : Bool :=
  (pyStrip l).isEmpty

/-- Split a list of lines at its first non-blank line (the blank-counting
loop of fix_fragmented_blocks). -/
def splitBlanks : List Line → List Line × List Line
  | [] => ([], [])
  | l :: ls =>
    if isBlank l then
      let p := splitBlanks ls
      (l :: p.1, p.2)
    else ([], l :: ls)

/-- The literal closing fence emitted when a merged block is re-closed. -/
def fenceLit : Line := "```".data

/-- Orphan lookahead at a candidate closing fence, over the lines that
follow the fence: count the blank gap, and only when it is at most one
line and something follows, scan for an orphan run. -/
def orphansOf (rest : List Line) : List Line :=
  if (splitBlanks rest).1.length ≤ 1 && !(splitBlanks rest).2.isEmpty then
    (scanOrphans [] (splitBlanks rest).2).1
  else []

/-- Main loop of fix_fragmented_blocks.  The Nat argument counts lines
still to be skipped after a merge consumed the blank gap and the orphan
run (keeps the recursion structural, mirroring the index jump i = j of
the source).  The Option Line argument is code_lang; it is written and
cleared exactly as in the source but never read.  The value none models
the IndexError that rest.split()[0] would raise on an empty split; the
guard of the opening-fence branch makes it unreachable (see
fix_fragmented_blocks_total). -/
def fixLoop : List Line → Nat → Bool → Option Line → Option (List Line)
  | [], _, _, _ => some []
  | _ :: rest, k+1, inCode, lang => fixLoop rest k inCode lang
  | line :: rest, 0, inCode, lang =>
    if startsWithL "```".data (pyStrip line) then
      match pyStrip ((pyStrip line).drop 3) with
      | c :: r3 =>
        if c.isAlpha then
          -- opening fence with language: code_lang = rest.split()[0]
          match (pySplitWs (c :: r3)).head? with
          | none => none
          | some w => (fixLoop rest 0 true (some w)).map (line :: ·)
        else
          -- opening fence without language (toggle)
          if inCode then (fixLoop rest 0 false none).map (line :: ·)
          else (fixLoop rest 0 true lang).map (line :: ·)
      | [] =>
        if inCode then
          -- candidate closing fence: look ahead for orphaned code after
          -- the blank gap (orphansOf performs the lookahead)
          if !(orphansOf rest).isEmpty then
            (fixLoop rest ((splitBlanks rest).1.length + (orphansOf rest).length)
                false none).map
              (fun r => orphansOf rest ++ fenceLit :: r)
          else
            (fixLoop rest 0 false none).map (line :: ·)
        else
          -- opening fence without language (toggle, opening direction)
          (fixLoop rest 0 true lang).map (line :: ·)
    else
      (fixLoop rest 0 inCode lang).map (line :: ·)

/-- fix_fragmented_blocks of fix_mdx.py: split into lines, run the
scanner from outside any code block, and re-join. -/
def fix_fragmented_blocks (content : String) : Option String :=
  (fixLoop (splitLinesL content.data) 0 false none).map
    (fun r => String.mk (joinLinesL r))

/-! ## decode_html_entities -/

/-- The HTML_ENTITIES table of fix_mdx.py, in dictionary insertion order. -/
def htmlEntities : List (List Char × List Char) :=
  [("&#91;".data, "[".data), ("&#93;".data, "]".data),
   ("&#123;".data, "\x7b".data), ("&#125;".data, "\x7d".data),
   ("&lt;".data, "<".data), ("&gt;".data, ">".data),
   ("&amp;".data, "&".data), ("&quot;".data, "\"".data),
   ("&#39;".data, "'".data)]

/-- Apply the named-entity table by successive str.replace calls. -/
def applyEntityTable (cs : List Char) : List Char :=
  htmlEntities.foldl (fun acc p => pyReplace p.1 p.2 acc) cs

/-- Numeric value of a digit string (int of a regex \d+ capture). -/
def natOfDigits (ds : List Char) : Nat :=
  ds.foldl (fun a c => a * 10 + (c.toNat - 48)) 0

/-- Try to match the regex &#(\d+); at the start of the list.  On success
return the captured value and the number of characters of the match that
follow its first character. -/
def numEntAt : List Char → Option (Nat × Nat)
  | '&' :: '#' :: r2 =>
    let ds := r2.takeWhile Char.isDigit
    if ds.isEmpty then none
    else if (r2.drop ds.length).head? == some ';' then
      some (natOfDigits ds, ds.length + 2)
    else none
  | _ => none

/-- re.sub of &#(\d+); by chr of the captured value.  Python's chr raises
ValueError for values at or above 0x110000, modelled by none.  (Python's
chr also accepts lone surrogate code points, which Lean's Char cannot
carry; Char.ofNat then yields a default character.  No claim or input in
this development involves a surrogate.) -/
def decNumGo : Nat → List Char → Option (List Char)
  | _, [] => some []
  | k+1, _ :: rest => decNumGo k rest
  | 0, c :: rest =>
    match numEntAt (c :: rest) with
    | some (n, k) =>
      if n < 1114112 then (decNumGo k rest).map (Char.ofNat n :: ·) else none
    | none => (decNumGo 0 rest).map (c :: ·)

/-- decode_html_entities of fix_mdx.py: named-entity table first, then
numeric entities; none models the ValueError of chr on an out-of-range
numeric entity. -/
def decode_html_entities (content : String) : Option String :=
  (decNumGo 0 (applyEntityTable content.data)).map String.mk

/-- Does the numeric-entity pass meet an entity whose value is out of
chr's range (the condition under which decode_html_entities raises)? -/
def hasHugeEntGo : Nat → List Char → Bool
  | _, [] => false
  | k+1, _ :: rest => hasHugeEntGo k rest
  | 0, c :: rest =>
    match numEntAt (c :: rest) with
    | some (n, k) => if n < 1114112 then hasHugeEntGo k rest else true
    | none => hasHugeEntGo 0 rest

/-! ## remove_empty_code_blocks -/

/-- Tail matcher for the regex fence-newline (\s*\n)* fence: given the
text after the opening fence and its newline, return the length of the
only possible remaining match (the gap may hold no backtick), where the
Bool records whether the group iteration may stop here (start of the gap
or just after a newline). -/
def emptyTail : List Char → Bool → Option Nat
  | [], _ => none
  | c :: rest, ok =>
    if ok && startsWithL "```".data (c :: rest) then some 3
    else if pyIsSpace c then (emptyTail rest (c == '\n')).map (· + 1)
    else none

/-- Match length of the regex of remove_empty_code_blocks at the start of
the list, if it matches there. -/
def tryEmptyBlock (cs : List Char) : Option Nat :=
  if startsWithL "```\n".data cs then (emptyTail (cs.drop 4) true).map (· + 4)
  else none

/-- re.sub of the empty-block pattern by the empty string. -/
def rmEmptyGo : Nat → List Char → List Char
  | _, [] => []
  | k+1, _ :: rest => rmEmptyGo k rest
  | 0, c :: rest =>
    match tryEmptyBlock (c :: rest) with
    | some k => rmEmptyGo (k - 1) rest
    | none => c :: rmEmptyGo 0 rest

/-- remove_empty_code_blocks of fix_mdx.py: the whitespace-gap pattern,
then the adjacent-fences pattern. -/
def remove_empty_code_blocks (content : String) : String :=
  String.mk (pyReplace "```\n```".data [] (rmEmptyGo 0 content.data))

/-! ## escape_jsx_patterns -/

/-- The backtick character. -/
def backtick : Char := Char.ofNat 96

/-- re.sub (?<!\\)<(\d) : escape an unescaped < before a digit.  The
Option Char argument is the previous character of the subject (for the
lookbehind). -/
def subLtDigit : Option Char → List Char → List Char
  | _, [] => []
  | prev, c :: d :: rest =>
    if c == '<' && d.isDigit && prev != some '\\' then
      '\\' :: '<' :: d :: subLtDigit (some d) rest
    else c :: subLtDigit (some c) (d :: rest)
  | _, [c] => [c]

/-- re.sub (?<!\\)<-chan : escape an unescaped Go channel type. -/
def subLtChan : Option Char → Nat → List Char → List Char
  | _, _, [] => []
  | prev, k+1, _ :: rest => subLtChan prev k rest
  | prev, 0, c :: rest =>
    if c == '<' && startsWithL "-chan".data rest && prev != some '\\' then
      "\\<-chan".data ++ subLtChan (some 'n') 5 rest
    else c :: subLtChan (some c) 0 rest

/-- re.sub (?<!\\)<-(?![a-zA-Z]) : escape an unescaped Go receive. -/
def subLtRecv : Option Char → List Char → List Char
  | _, [] => []
  | prev, c :: d :: rest =>
    if c == '<' && d == '-' && prev != some '\\' &&
       !(rest.head?.elim false Char.isAlpha) then
      '\\' :: '<' :: '-' :: subLtRecv (some '-') rest
    else c :: subLtRecv (some c) (d :: rest)
  | _, [c] => [c]

/-- re.sub (?<!\\)\{\} : escape unescaped empty braces. -/
def subEmptyBraces : Option Char → List Char → List Char
  | _, [] => []
  | prev, c :: d :: rest =>
    if c == '{' && d == '}' && prev != some '\\' then
      '\\' :: '{' :: '\\' :: '}' :: subEmptyBraces (some '}') rest
    else c :: subEmptyBraces (some c) (d :: rest)
  | _, [c] => [c]

/-- re.sub (?<!\\)\{([^{}]+)\} : escape a braced word (diagram lines). -/
def subBraceWord : Option Char → Nat → List Char → List Char
  | _, _, [] => []
  | prev, k+1, _ :: rest => subBraceWord prev k rest
  | prev, 0, c :: rest =>
    if c == '{' && prev != some '\\' then
      let run := rest.takeWhile (fun x => x != '{' && x != '}')
      if !run.isEmpty && (rest.drop run.length).head? == some '}' then
        '\\' :: '{' :: run ++ '\\' :: '}' :: subBraceWord (some '}') (run.length + 1) rest
      else c :: subBraceWord (some c) 0 rest
    else c :: subBraceWord (some c) 0 rest

/-- re.sub (?<!\\)\{\{-? : escape a Helm-style opening delimiter (the
optional dash is consumed and dropped). -/
def subHelmOpen : Option Char → Nat → List Char → List Char
  | _, _, [] => []
  | prev, k+1, _ :: rest => subHelmOpen prev k rest
  | prev, 0, c :: rest =>
    if c == '{' && startsWithL "\x7b".data rest && prev != some '\\' then
      if (rest.drop 1).head? == some '-' then
        "\\\x7b\\\x7b".data ++ subHelmOpen (some '-') 2 rest
      else
        "\\\x7b\\\x7b".data ++ subHelmOpen (some '{') 1 rest
    else c :: subHelmOpen (some c) 0 rest

/-- re.sub -?(?<!\\)\}\} : escape a Helm-style closing delimiter.  When a
dash is present it is consumed (and dropped) and the lookbehind then
inspects the dash itself, so it always passes. -/
def subHelmClose : Option Char → List Char → List Char
  | _, [] => []
  | prev, c :: d :: e :: rest =>
    if c == '-' && d == '}' && e == '}' then
      "\\\x7d\\\x7d".data ++ subHelmClose (some '}') rest
    else if c == '}' && d == '}' && prev != some '\\' then
      "\\\x7d\\\x7d".data ++ subHelmClose (some '}') (e :: rest)
    else c :: subHelmClose (some c) (d :: e :: rest)
  | prev, [c, d] =>
    if c == '}' && d == '}' && prev != some '\\' then "\\\x7d\\\x7d".data
    else [c, d]
  | _, [c] => [c]

/-- The per-line substitution chain of escape_jsx_patterns, in source
order, with its containment guards. -/
def escapeLine (l : Line) : Line :=
  let a1 := pyReplace "\\\\\x7b".data "\\\x7b".data l
  let a2 := pyReplace "\\\\\x7d".data "\\\x7d".data a1
  let a3 := pyReplace "\\\\<".data "\\<".data a2
  let b1 := subLtDigit none a3
  let b2 := subLtChan none 0 b1
  let b3 := subLtRecv none b2
  let c1 := if b3.contains backtick then b3 else subEmptyBraces none b3
  let c2 := if containsSub "-->".data c1 then subBraceWord none 0 c1 else c1
  if c2.contains backtick then c2
  else subHelmClose none (subHelmOpen none 0 c2)

/-- Line loop of escape_jsx_patterns: track the fence state with the same
toggle rule, pass fenced lines through, substitute outside fences. -/
def escapeLines : List Line → Bool → List Line
  | [], _ => []
  | line :: rest, inCode =>
    let stripped := pyStrip line
    if startsWithL "```".data stripped then
      match pyStrip (stripped.drop 3) with
      | c :: _ =>
        if c.isAlpha then line :: escapeLines rest true
        else line :: escapeLines rest inCode
      | [] => line :: escapeLines rest (!inCode)
    else if inCode then line :: escapeLines rest inCode
    else escapeLine line :: escapeLines rest inCode

/-- escape_jsx_patterns of fix_mdx.py. -/
def escape_jsx_patterns (content : String) : String :=
  String.mk (joinLinesL (escapeLines (splitLinesL content.data) false))

/-! ## split_frontmatter and the per-file pipeline -/

/-- split_frontmatter of fix_mdx.py: if the content starts with --- and
the text after it contains a newline-dash-dash-dash, the frontmatter is
everything through that closing marker; otherwise the frontmatter is
empty and the whole content is body. -/
def split_frontmatter (content : String) : String × String :=
  let cs := content.data
  if !startsWithL "---".data cs then ("", content)
  else
    match pyFind "\n---".data (cs.drop 3) with
    | none => ("", content)
    | some idx =>
      (String.mk (cs.take (3 + idx + 4)), String.mk (cs.drop (3 + idx + 4)))

/-- The body transformation of fix_markdown_file, steps 1-4: decode
entities, fix fragmented blocks, remove empty blocks, escape JSX. -/
def transformBody (body : String) : Option String :=
  (decode_html_entities body).bind fun b1 =>
    (fix_fragmented_blocks b1).map fun b2 =>
      escape_jsx_patterns (remove_empty_code_blocks b2)

/-- The in-memory transformation of fix_markdown_file: split out the
frontmatter, transform only the body, recombine.  File input/output of
the source is elided; none models a propagated exception. -/
def fix_markdown_content (content : String) : Option String :=
  (transformBody (split_frontmatter content).2).map
    ((split_frontmatter content).1 ++ ·)

/-! ## Fence counting and the spec's notion of a well-formed pair -/

/-- A fence-marker line: its stripped content starts with the marker. -/
def fenceMarkerLine (l : Line) : Bool :=
  startsWithL "```".data (pyStrip l)

/-- Number of fence-marker lines of a document. -/
def countFences (ls : List Line) : Nat :=
  ls.countP fenceMarkerLine

/-- An opening fence carrying an alphabetic language tag. -/
def isOpenLangFence (l : Line) : Bool :=
  fenceMarkerLine l && ((pyStrip ((pyStrip l).drop 3)).head?.elim false Char.isAlpha)

/-- A bare closing fence: the marker alone. -/
def isBareCloseFence (l : Line) : Bool :=
  fenceMarkerLine l && (pyStrip ((pyStrip l).drop 3)).isEmpty

/-- Is the first fence-marker line of the list a bare closing fence? -/
def closesBeforeNextFence : List Line → Bool
  | [] => false
  | l :: ls => if fenceMarkerLine l then isBareCloseFence l else closesBeforeNextFence ls

/-- Modelled from the spec: the document contains at least one
well-formed fence pair — an opening fence with a language tag whose next
fence-marker line is a bare closing fence. -/
def hasWellFormedPair : List Line → Bool
  | [] => false
  | l :: ls => (isOpenLangFence l && closesBeforeNextFence ls) || hasWellFormedPair ls

end FixMdx

namespace FixDocLinks

open FixMdx

/-- Replacement head of rule 3 of fix_file (fix-doc-links.py). -/
def ghPkg : List Char :=
  "](https://github.com/lookatitude/beluga-ai/blob/main/pkg/".data

/-- re.sub of rule 3: rewrite a link target /pkg/<path> (the capture is
one or more non-parenthesis characters) to its GitHub blob URL. -/
def subPkgGo : Nat → List Char → List Char
  | _, [] => []
  | k+1, _ :: rest => subPkgGo k rest
  | 0, c :: rest =>
    if c == ']' && startsWithL "(/pkg/".data rest then
      let body := (rest.drop 6).takeWhile (fun x => x != ')')
      if !body.isEmpty && ((rest.drop 6).drop body.length).head? == some ')' then
        ghPkg ++ body ++ ')' :: subPkgGo (6 + body.length + 1) rest
      else c :: subPkgGo 0 rest
    else c :: subPkgGo 0 rest

/-- The /pkg/ link-rewrite rule of fix_file applied to a whole text. -/
def applyPkgRule (s : String) : String :=
  String.mk (subPkgGo 0 s.data)

/-- The aggregate counters of fix-doc-links.py: changes_made and the set
of modified files (modelled as a duplicate-free list). -/
structure LinkFixState where
  changes_made : Nat
  files_modified : List String
deriving DecidableEq

/-- Adding to the files_modified set. -/
def addFile (s : List String) (f : String) : List String :=
  if s.contains f then s else f :: s

/-- fix_file of fix-doc-links.py.  The file read is modelled by an Except
argument (error means the read raised); the thirty-one rewrite rules of
the body are abstracted as the applyRules argument, which returns the
rewritten content and the local change count (the claim settled against
this model concerns only the read-error control path, which is modelled
exactly: on a read error the function logs, returns 0, writes nothing
and leaves the counters untouched).  The returned triple is the return
value, the new counter state, and the content written back (none when
the file is not written). -/
def fix_file (applyRules : String → String × Nat) (path : String)
    (readResult : Except String String) (st : LinkFixState) :
    Nat × LinkFixState × Option String :=
  match readResult with
  | .error _ => (0, st, none)
  | .ok content =>
    let r := applyRules content
    if r.1 ≠ content then
      (r.2, ⟨st.changes_made + r.2, addFile st.files_modified path⟩, some r.1)
    else (0, st, none)

end FixDocLinks

/-! # Lemmas and theorems -/

namespace FixMdx

theorem joinLinesL_cons (l : Line) (ls : List Line) (h : ls ≠ []) :
    joinLinesL (l :: ls) = l ++ '\n' :: joinLinesL ls := by
  cases ls with
  | nil => exact absurd rfl h
  | cons a as => rfl

theorem splitLinesL_ne_nil (cs : List Char) : splitLinesL cs ≠ [] := by
  induction cs with
  | nil => simp [splitLinesL]
  | cons c rest ih =>
    simp only [splitLinesL]
    split
    · simp
    · unfold splitCons
      cases splitLinesL rest <;> simp

theorem joinLinesL_splitCons (c : Char) (R : List Line) (h : R ≠ []) :
    joinLinesL (splitCons c R) = c :: joinLinesL R := by
  cases R with
  | nil => exact absurd rfl h
  | cons l ls =>
    cases ls with
    | nil => rfl
    | cons l2 ls2 => rfl

theorem joinLinesL_splitLinesL (cs : List Char) :
    joinLinesL (splitLinesL cs) = cs := by
  induction cs with
  | nil => rfl
  | cons c rest ih =>
    simp only [splitLinesL]
    split
    · next h =>
      rw [joinLinesL_cons _ _ (splitLinesL_ne_nil rest), ih, h]
      rfl
    · next h =>
      rw [joinLinesL_splitCons _ _ (splitLinesL_ne_nil rest), ih]

theorem splitLinesL_no_newline (cs : List Char) :
    ∀ l ∈ splitLinesL cs, '\n' ∉ l := by
  induction cs with
  | nil =>
    intro l hl
    simp [splitLinesL] at hl
    simp [hl]
  | cons c rest ih =>
    intro l hl
    simp only [splitLinesL] at hl
    by_cases h : c = '\n'
    · rw [if_pos h] at hl
      rcases List.mem_cons.1 hl with h1 | h1
      · simp [h1]
      · exact ih l h1
    · rw [if_neg h] at hl
      cases hsp : splitLinesL rest with
      | nil => exact absurd hsp (splitLinesL_ne_nil rest)
      | cons a as =>
        rw [hsp] at hl
        unfold splitCons at hl
        rcases List.mem_cons.1 hl with h1 | h1
        · subst h1
          intro hy
          rcases List.mem_cons.1 hy with h2 | h2
          · exact h h2.symm
          · exact ih a (by rw [hsp]; exact List.mem_cons_self a as) h2
        · exact ih l (by rw [hsp]; exact List.mem_cons_of_mem a h1)

theorem splitLinesL_single (l : List Char) (h : '\n' ∉ l) :
    splitLinesL l = [l] := by
  induction l with
  | nil => rfl
  | cons c lr ih =>
    have hc : ¬(c = '\n') := fun e => h (by simp [e])
    simp only [splitLinesL, if_neg hc]
    rw [ih (fun hm => h (List.mem_cons_of_mem c hm))]
    rfl

theorem splitLinesL_append (l : List Char) (cs : List Char) (h : '\n' ∉ l) :
    splitLinesL (l ++ '\n' :: cs) = l :: splitLinesL cs := by
  induction l with
  | nil => simp [splitLinesL]
  | cons c lr ih =>
    have hc : ¬(c = '\n') := fun e => h (by simp [e])
    simp only [List.cons_append, splitLinesL, if_neg hc]
    rw [List.append_eq, ih (fun hm => h (List.mem_cons_of_mem c hm))]
    rfl

theorem splitLinesL_joinLinesL (R : List Line) (hne : R ≠ [])
    (h : ∀ l ∈ R, '\n' ∉ l) :
    splitLinesL (joinLinesL R) = R := by
  induction R with
  | nil => exact absurd rfl hne
  | cons l ls ih =>
    cases ls with
    | nil =>
      show splitLinesL (joinLinesL [l]) = [l]
      exact splitLinesL_single l (h l (List.mem_cons_self l []))
    | cons l2 ls2 =>
      rw [joinLinesL_cons l (l2 :: ls2) (by simp)]
      rw [splitLinesL_append l _ (h l (List.mem_cons_self l _))]
      rw [ih (by simp) (fun x hx => h x (List.mem_cons_of_mem l hx))]

end FixMdx

namespace FixMdx

theorem scanOrphans_decomp : ∀ (ls acc : List Line), ∃ mid,
    (scanOrphans acc ls).1 = acc ++ mid ∧
    mid ++ (scanOrphans acc ls).2 = ls ∧
    ∀ l ∈ mid, startsWithL "```".data (pyStrip l) = false := by
  intro ls
  induction ls with
  | nil =>
    intro acc
    exact ⟨[], by simp [scanOrphans], by simp [scanOrphans], by simp⟩
  | cons l ls ih =>
    intro acc
    simp only [scanOrphans]
    split
    · next h => exact ⟨[], by simp, by simp, by simp⟩
    · split
      · next h2 => exact ⟨[], by simp, by simp, by simp⟩
      · split
        · next h hmd hcont =>
          obtain ⟨mid', h1, h2, h3⟩ := ih (acc ++ [l])
          refine ⟨l :: mid', ?_, ?_, ?_⟩
          · rw [h1]; simp
          · simpa using h2
          · intro x hx
            rcases List.mem_cons.1 hx with hx | hx
            · subst hx
              have : startsWithL "```".data (pyStrip x) = false := by
                rcases Bool.or_eq_false_iff.1 (Bool.eq_false_iff.2 h) with ⟨_, hb⟩
                exact hb
              exact this
            · exact h3 x hx
        · next => exact ⟨[], by simp, by simp, by simp⟩

theorem splitBlanks_append (ls : List Line) :
    (splitBlanks ls).1 ++ (splitBlanks ls).2 = ls := by
  induction ls with
  | nil => rfl
  | cons l ls ih =>
    simp only [splitBlanks]
    split
    · simpa using ih
    · rfl

theorem splitBlanks_blank (ls : List Line) :
    ∀ l ∈ (splitBlanks ls).1, isBlank l = true := by
  induction ls with
  | nil => intro l hl; simp [splitBlanks] at hl
  | cons x ls ih =>
    intro l hl
    simp only [splitBlanks] at hl
    split at hl
    · next hb =>
      rcases List.mem_cons.1 hl with h | h
      · rwa [h]
      · exact ih l h
    · simp at hl

end FixMdx

namespace FixMdx

theorem fixLoop_succ (x : Line) (rest : List Line) (k : Nat) (b : Bool)
    (lang : Option Line) :
    fixLoop (x :: rest) (k + 1) b lang = fixLoop rest k b lang := by
  rfl

theorem fixLoop_skip (xs : List Line) : ∀ (ls : List Line) (k : Nat) (b : Bool)
    (lang : Option Line),
    fixLoop (xs ++ ls) (xs.length + k) b lang = fixLoop ls k b lang := by
  induction xs with
  | nil => intro ls k b lang; simp
  | cons x xr ih =>
    intro ls k b lang
    have hlen : (x :: xr).length + k = (xr.length + k) + 1 := by
      simp [List.length_cons]
      omega
    rw [List.cons_append, hlen, fixLoop_succ]
    exact ih ls k b lang

end FixMdx

namespace FixMdx

theorem not_space_of_alpha (c : Char) (h : c.isAlpha = true) :
    pyIsSpace c = false := by
  cases h' : pyIsSpace c
  · rfl
  · exfalso
    unfold pyIsSpace at h'
    simp only [Bool.or_eq_true, beq_iff_eq] at h'
    rcases h' with ((((e | e) | e) | e) | e) | e <;> subst e <;>
      exact absurd h (by decide)

theorem splitWsGo_ne_nil (cs : List Char) : ∀ (cur : List Char), cur ≠ [] →
    splitWsGo cur cs ≠ [] := by
  induction cs with
  | nil =>
    intro cur h
    simp only [splitWsGo]
    rw [if_neg (by simpa using h)]
    simp
  | cons c rest ih =>
    intro cur h
    simp only [splitWsGo]
    split
    · rw [if_neg (by simpa using h)]
      simp
    · exact ih (c :: cur) (by simp)

theorem pySplitWs_ne_nil (c : Char) (cs : List Char) (h : pyIsSpace c = false) :
    pySplitWs (c :: cs) ≠ [] := by
  unfold pySplitWs
  simp only [splitWsGo, h]
  rw [if_neg (by simp [h])]
  exact splitWsGo_ne_nil cs [c] (by simp)

theorem fixLoop_total (ls : List Line) : ∀ (k : Nat) (b : Bool)
    (lang : Option Line), ∃ out, fixLoop ls k b lang = some out := by
  induction ls with
  | nil => intro k b lang; exact ⟨[], rfl⟩
  | cons line rest ih =>
    intro k b lang
    match k with
    | k'+1 =>
      rw [fixLoop_succ]
      exact ih k' b lang
    | 0 =>
      show ∃ out, fixLoop (line :: rest) 0 b lang = some out
      rw [show fixLoop (line :: rest) 0 b lang =
        (if startsWithL "```".data (pyStrip line) then
          match pyStrip ((pyStrip line).drop 3) with
          | c :: r3 =>
            if c.isAlpha then
              match (pySplitWs (c :: r3)).head? with
              | none => none
              | some w => (fixLoop rest 0 true (some w)).map (line :: ·)
            else
              if b then (fixLoop rest 0 false none).map (line :: ·)
              else (fixLoop rest 0 true lang).map (line :: ·)
          | [] =>
            if b then
              if !(orphansOf rest).isEmpty then
                (fixLoop rest ((splitBlanks rest).1.length + (orphansOf rest).length)
                    false none).map
                  (fun r => orphansOf rest ++ fenceLit :: r)
              else
                (fixLoop rest 0 false none).map (line :: ·)
            else
              (fixLoop rest 0 true lang).map (line :: ·)
        else
          (fixLoop rest 0 b lang).map (line :: ·)) from rfl]
      split
      · split
        · next c r3 hstr =>
          split
          · next halpha =>
            cases hh : (pySplitWs (c :: r3)).head? with
            | none =>
              exfalso
              have hne := pySplitWs_ne_nil c r3 (not_space_of_alpha c halpha)
              rw [List.head?_eq_none_iff] at hh
              exact hne hh
            | some w =>
              obtain ⟨out, ho⟩ := ih 0 true (some w)
              refine ⟨line :: out, ?_⟩
              show (fixLoop rest 0 true (some w)).map (line :: ·) = some (line :: out)
              rw [ho]
              rfl
          · next =>
            cases b
            · obtain ⟨out, ho⟩ := ih 0 true lang
              exact ⟨line :: out, by simp [ho]⟩
            · obtain ⟨out, ho⟩ := ih 0 false none
              exact ⟨line :: out, by simp [ho]⟩
        · next hstr =>
          cases b
          · obtain ⟨out, ho⟩ := ih 0 true lang
            exact ⟨line :: out, by simp [ho]⟩
          · show ∃ out,
              (if !(orphansOf rest).isEmpty then
                (fixLoop rest ((splitBlanks rest).1.length + (orphansOf rest).length)
                    false none).map (fun r => orphansOf rest ++ fenceLit :: r)
              else (fixLoop rest 0 false none).map (line :: ·)) = some out
            split
            · obtain ⟨out, ho⟩ :=
                ih ((splitBlanks rest).1.length + (orphansOf rest).length) false none
              exact ⟨orphansOf rest ++ fenceLit :: out, by rw [ho]; rfl⟩
            · obtain ⟨out, ho⟩ := ih 0 false none
              exact ⟨line :: out, by rw [ho]; rfl⟩
      · obtain ⟨out, ho⟩ := ih 0 b lang
        exact ⟨line :: out, by rw [ho]; rfl⟩

end FixMdx

namespace FixMdx

theorem fixLoop_zero_eq (line : Line) (rest : List Line) (b : Bool)
    (lang : Option Line) :
    fixLoop (line :: rest) 0 b lang =
      (if startsWithL "```".data (pyStrip line) then
        match pyStrip ((pyStrip line).drop 3) with
        | c :: r3 =>
          if c.isAlpha then
            match (pySplitWs (c :: r3)).head? with
            | none => none
            | some w => (fixLoop rest 0 true (some w)).map (line :: ·)
          else
            if b then (fixLoop rest 0 false none).map (line :: ·)
            else (fixLoop rest 0 true lang).map (line :: ·)
        | [] =>
          if b then
            if !(orphansOf rest).isEmpty then
              (fixLoop rest ((splitBlanks rest).1.length + (orphansOf rest).length)
                  false none).map
                (fun r => orphansOf rest ++ fenceLit :: r)
            else
              (fixLoop rest 0 false none).map (line :: ·)
          else
            (fixLoop rest 0 true lang).map (line :: ·)
      else
        (fixLoop rest 0 b lang).map (line :: ·)) := rfl

theorem fixLoop_nonfence (line : Line) (rest : List Line) (b : Bool)
    (lang : Option Line)
    (h : startsWithL "```".data (pyStrip line) = false) :
    fixLoop (line :: rest) 0 b lang = (fixLoop rest 0 b lang).map (line :: ·) := by
  rw [fixLoop_zero_eq, if_neg (by simp [h])]

theorem fixLoop_alpha (line : Line) (rest : List Line) (b : Bool)
    (lang : Option Line) (c : Char) (r3 : List Char) (w : List Char)
    (hf : startsWithL "```".data (pyStrip line) = true)
    (hstr : pyStrip ((pyStrip line).drop 3) = c :: r3)
    (halpha : c.isAlpha = true)
    (hw : (pySplitWs (c :: r3)).head? = some w) :
    fixLoop (line :: rest) 0 b lang =
      (fixLoop rest 0 true (some w)).map (line :: ·) := by
  rw [fixLoop_zero_eq, if_pos hf, hstr]
  show (if c.isAlpha then
          match (pySplitWs (c :: r3)).head? with
          | none => none
          | some w => (fixLoop rest 0 true (some w)).map (line :: ·)
        else
          if b then (fixLoop rest 0 false none).map (line :: ·)
          else (fixLoop rest 0 true lang).map (line :: ·)) = _
  rw [if_pos halpha, hw]

theorem fixLoop_nonalpha (line : Line) (rest : List Line) (b : Bool)
    (lang : Option Line) (c : Char) (r3 : List Char)
    (hf : startsWithL "```".data (pyStrip line) = true)
    (hstr : pyStrip ((pyStrip line).drop 3) = c :: r3)
    (halpha : c.isAlpha = false) :
    fixLoop (line :: rest) 0 b lang =
      (if b then (fixLoop rest 0 false none).map (line :: ·)
       else (fixLoop rest 0 true lang).map (line :: ·)) := by
  rw [fixLoop_zero_eq, if_pos hf, hstr]
  show (if c.isAlpha then
          match (pySplitWs (c :: r3)).head? with
          | none => none
          | some w => (fixLoop rest 0 true (some w)).map (line :: ·)
        else
          if b then (fixLoop rest 0 false none).map (line :: ·)
          else (fixLoop rest 0 true lang).map (line :: ·)) = _
  rw [if_neg (by simp [halpha])]

theorem fixLoop_close (line : Line) (rest : List Line)
    (lang : Option Line)
    (hf : startsWithL "```".data (pyStrip line) = true)
    (hstr : pyStrip ((pyStrip line).drop 3) = []) :
    fixLoop (line :: rest) 0 true lang =
      (if !(orphansOf rest).isEmpty then
        (fixLoop rest ((splitBlanks rest).1.length + (orphansOf rest).length)
            false none).map
          (fun r => orphansOf rest ++ fenceLit :: r)
      else
        (fixLoop rest 0 false none).map (line :: ·)) := by
  rw [fixLoop_zero_eq, if_pos hf, hstr]
  rfl

theorem fixLoop_openToggle (line : Line) (rest : List Line)
    (lang : Option Line)
    (hf : startsWithL "```".data (pyStrip line) = true)
    (hstr : pyStrip ((pyStrip line).drop 3) = []) :
    fixLoop (line :: rest) 0 false lang =
      (fixLoop rest 0 true lang).map (line :: ·) := by
  rw [fixLoop_zero_eq, if_pos hf, hstr]
  rfl

end FixMdx

namespace FixMdx

theorem fixLoop_no_fence (ls : List Line)
    (h : ∀ l ∈ ls, startsWithL "```".data (pyStrip l) = false) :
    ∀ (b : Bool) (lang : Option Line), fixLoop ls 0 b lang = some ls := by
  induction ls with
  | nil => intro b lang; rfl
  | cons line rest ih =>
    intro b lang
    rw [fixLoop_nonfence line rest b lang (h line (List.mem_cons_self line rest))]
    rw [ih (fun l hl => h l (List.mem_cons_of_mem line hl)) b lang]
    rfl

theorem fenceMarkerLine_fenceLit : fenceMarkerLine fenceLit = true := by decide

theorem fenceMarkerLine_of_blank (l : Line) (h : isBlank l = true) :
    fenceMarkerLine l = false := by
  unfold isBlank at h
  unfold fenceMarkerLine
  rw [List.isEmpty_iff.1 h]
  rfl

theorem orphansOf_eq (rest : List Line) (h : (orphansOf rest).isEmpty = false) :
    orphansOf rest = (scanOrphans [] (splitBlanks rest).2).1 := by
  unfold orphansOf
  unfold orphansOf at h
  split
  · rfl
  · next hc => rw [if_neg hc] at h; simp at h

theorem fixLoop_out_ne_nil (line : Line) (rest : List Line) (b : Bool)
    (lang : Option Line) (out : List Line)
    (h : fixLoop (line :: rest) 0 b lang = some out) : out ≠ [] := by
  by_cases hf : startsWithL "```".data (pyStrip line) = true
  · cases hstr : pyStrip ((pyStrip line).drop 3) with
    | cons c r3 =>
      by_cases halpha : c.isAlpha = true
      · cases hh : (pySplitWs (c :: r3)).head? with
        | none =>
          exfalso
          exact pySplitWs_ne_nil c r3 (not_space_of_alpha c halpha)
            (List.head?_eq_none_iff.1 hh)
        | some w =>
          rw [fixLoop_alpha line rest b lang c r3 w hf hstr halpha hh] at h
          obtain ⟨r, _, hr2⟩ := Option.map_eq_some'.1 h
          rw [← hr2]
          simp
      · have halpha' : c.isAlpha = false := Bool.eq_false_iff.2 halpha
        rw [fixLoop_nonalpha line rest b lang c r3 hf hstr halpha'] at h
        split at h <;>
          · obtain ⟨r, _, hr2⟩ := Option.map_eq_some'.1 h
            rw [← hr2]
            simp
    | nil =>
      cases b
      · rw [fixLoop_openToggle line rest lang hf hstr] at h
        obtain ⟨r, _, hr2⟩ := Option.map_eq_some'.1 h
        rw [← hr2]
        simp
      · rw [fixLoop_close line rest lang hf hstr] at h
        split at h
        · obtain ⟨r, _, hr2⟩ := Option.map_eq_some'.1 h
          rw [← hr2]
          simp
        · obtain ⟨r, _, hr2⟩ := Option.map_eq_some'.1 h
          rw [← hr2]
          simp
  · rw [fixLoop_nonfence line rest b lang (Bool.eq_false_iff.2 hf)] at h
    obtain ⟨r, _, hr2⟩ := Option.map_eq_some'.1 h
    rw [← hr2]
    simp

end FixMdx

namespace FixMdx

theorem mem_of_mem_orphansOf (rest : List Line) (l : Line)
    (hne : (orphansOf rest).isEmpty = false) (hl : l ∈ orphansOf rest) :
    l ∈ rest := by
  rw [orphansOf_eq rest hne] at hl
  obtain ⟨mid, hm1, hm2, _⟩ := scanOrphans_decomp (splitBlanks rest).2 []
  rw [hm1, List.nil_append] at hl
  have hA : l ∈ (splitBlanks rest).2 := by
    rw [← hm2]
    exact List.mem_append_left _ hl
  rw [← splitBlanks_append rest]
  exact List.mem_append_right _ hA

theorem nonfence_of_mem_orphansOf (rest : List Line) (l : Line)
    (hne : (orphansOf rest).isEmpty = false) (hl : l ∈ orphansOf rest) :
    startsWithL "```".data (pyStrip l) = false := by
  rw [orphansOf_eq rest hne] at hl
  obtain ⟨mid, hm1, _, hm3⟩ := scanOrphans_decomp (splitBlanks rest).2 []
  rw [hm1, List.nil_append] at hl
  exact hm3 l hl

theorem fixLoop_mem (ls : List Line) : ∀ (k : Nat) (b : Bool)
    (lang : Option Line) (out : List Line), fixLoop ls k b lang = some out →
    ∀ l ∈ out, l ∈ ls ∨ l = fenceLit := by
  induction ls with
  | nil =>
    intro k b lang out h l hl
    have h' : some ([] : List Line) = some out := h
    have hout : out = [] := (Option.some.inj h').symm
    rw [hout] at hl
    simp at hl
  | cons line rest ih =>
    intro k b lang out h l hl
    match k with
    | k'+1 =>
      rw [fixLoop_succ] at h
      rcases ih k' b lang out h l hl with h1 | h1
      · exact Or.inl (List.mem_cons_of_mem line h1)
      · exact Or.inr h1
    | 0 =>
      by_cases hf : startsWithL "```".data (pyStrip line) = true
      · cases hstr : pyStrip ((pyStrip line).drop 3) with
        | cons c r3 =>
          by_cases halpha : c.isAlpha = true
          · cases hh : (pySplitWs (c :: r3)).head? with
            | none =>
              exact absurd (List.head?_eq_none_iff.1 hh)
                (pySplitWs_ne_nil c r3 (not_space_of_alpha c halpha))
            | some w =>
              rw [fixLoop_alpha line rest b lang c r3 w hf hstr halpha hh] at h
              obtain ⟨r, hr1, hr2⟩ := Option.map_eq_some'.1 h
              rw [← hr2] at hl
              rcases List.mem_cons.1 hl with h1 | h1
              · exact Or.inl (h1 ▸ List.mem_cons_self line rest)
              · rcases ih 0 true (some w) r hr1 l h1 with h2 | h2
                · exact Or.inl (List.mem_cons_of_mem line h2)
                · exact Or.inr h2
          · rw [fixLoop_nonalpha line rest b lang c r3 hf hstr
              (Bool.eq_false_iff.2 halpha)] at h
            split at h <;>
            · obtain ⟨r, hr1, hr2⟩ := Option.map_eq_some'.1 h
              rw [← hr2] at hl
              rcases List.mem_cons.1 hl with h1 | h1
              · exact Or.inl (h1 ▸ List.mem_cons_self line rest)
              · rcases ih 0 _ _ r hr1 l h1 with h2 | h2
                · exact Or.inl (List.mem_cons_of_mem line h2)
                · exact Or.inr h2
        | nil =>
          cases b with
          | false =>
            rw [fixLoop_openToggle line rest lang hf hstr] at h
            obtain ⟨r, hr1, hr2⟩ := Option.map_eq_some'.1 h
            rw [← hr2] at hl
            rcases List.mem_cons.1 hl with h1 | h1
            · exact Or.inl (h1 ▸ List.mem_cons_self line rest)
            · rcases ih 0 true lang r hr1 l h1 with h2 | h2
              · exact Or.inl (List.mem_cons_of_mem line h2)
              · exact Or.inr h2
          | true =>
            rw [fixLoop_close line rest lang hf hstr] at h
            split at h
            · next horph =>
              obtain ⟨r, hr1, hr2⟩ := Option.map_eq_some'.1 h
              rw [← hr2] at hl
              have hne : (orphansOf rest).isEmpty = false := by
                cases he : (orphansOf rest).isEmpty
                · rfl
                · rw [he] at horph; simp at horph
              rcases List.mem_append.1 hl with h1 | h1
              · exact Or.inl
                  (List.mem_cons_of_mem line (mem_of_mem_orphansOf rest l hne h1))
              · rcases List.mem_cons.1 h1 with h2 | h2
                · exact Or.inr h2
                · rcases ih _ false none r hr1 l h2 with h3 | h3
                  · exact Or.inl (List.mem_cons_of_mem line h3)
                  · exact Or.inr h3
            · obtain ⟨r, hr1, hr2⟩ := Option.map_eq_some'.1 h
              rw [← hr2] at hl
              rcases List.mem_cons.1 hl with h1 | h1
              · exact Or.inl (h1 ▸ List.mem_cons_self line rest)
              · rcases ih 0 false none r hr1 l h1 with h2 | h2
                · exact Or.inl (List.mem_cons_of_mem line h2)
                · exact Or.inr h2
      · rw [fixLoop_nonfence line rest b lang (Bool.eq_false_iff.2 hf)] at h
        obtain ⟨r, hr1, hr2⟩ := Option.map_eq_some'.1 h
        rw [← hr2] at hl
        rcases List.mem_cons.1 hl with h1 | h1
        · exact Or.inl (h1 ▸ List.mem_cons_self line rest)
        · rcases ih 0 b lang r hr1 l h1 with h2 | h2
          · exact Or.inl (List.mem_cons_of_mem line h2)
          · exact Or.inr h2

end FixMdx

namespace FixMdx

theorem countFences_cons (l : Line) (ls : List Line) :
    countFences (l :: ls) = countFences ls + (if fenceMarkerLine l then 1 else 0) :=
  List.countP_cons _ _ _

theorem countFences_append (xs ys : List Line) :
    countFences (xs ++ ys) = countFences xs + countFences ys :=
  List.countP_append _ _ _

theorem fixLoop_count (n : Nat) : ∀ (ls : List Line), ls.length ≤ n →
    ∀ (b : Bool) (lang : Option Line) (out : List Line),
    fixLoop ls 0 b lang = some out → countFences out = countFences ls := by
  induction n with
  | zero =>
    intro ls hlen b lang out h
    have hnil : ls = [] := List.length_eq_zero.1 (Nat.le_zero.1 hlen)
    subst hnil
    have h' : some ([] : List Line) = some out := h
    rw [← Option.some.inj h']
  | succ n ih =>
    intro ls hlen b lang out h
    cases ls with
    | nil =>
      have h' : some ([] : List Line) = some out := h
      rw [← Option.some.inj h']
    | cons line rest =>
      have hrest : rest.length ≤ n := by
        have := hlen
        simp [List.length_cons] at this
        omega
      by_cases hf : startsWithL "```".data (pyStrip line) = true
      · have hfm : fenceMarkerLine line = true := hf
        cases hstr : pyStrip ((pyStrip line).drop 3) with
        | cons c r3 =>
          by_cases halpha : c.isAlpha = true
          · cases hh : (pySplitWs (c :: r3)).head? with
            | none =>
              exact absurd (List.head?_eq_none_iff.1 hh)
                (pySplitWs_ne_nil c r3 (not_space_of_alpha c halpha))
            | some w =>
              rw [fixLoop_alpha line rest b lang c r3 w hf hstr halpha hh] at h
              obtain ⟨r, hr1, hr2⟩ := Option.map_eq_some'.1 h
              rw [← hr2, countFences_cons, countFences_cons,
                ih rest hrest true (some w) r hr1]
          · rw [fixLoop_nonalpha line rest b lang c r3 hf hstr
              (Bool.eq_false_iff.2 halpha)] at h
            split at h <;>
            · obtain ⟨r, hr1, hr2⟩ := Option.map_eq_some'.1 h
              rw [← hr2, countFences_cons, countFences_cons, ih rest hrest _ _ r hr1]
        | nil =>
          cases b with
          | false =>
            rw [fixLoop_openToggle line rest lang hf hstr] at h
            obtain ⟨r, hr1, hr2⟩ := Option.map_eq_some'.1 h
            rw [← hr2, countFences_cons, countFences_cons, ih rest hrest true lang r hr1]
          | true =>
            rw [fixLoop_close line rest lang hf hstr] at h
            split at h
            · next horph =>
              have hne : (orphansOf rest).isEmpty = false := by
                cases he : (orphansOf rest).isEmpty
                · rfl
                · rw [he] at horph; simp at horph
              obtain ⟨mid, hm1, hm2, hm3⟩ := scanOrphans_decomp (splitBlanks rest).2 []
              have ho : orphansOf rest = mid := by
                rw [orphansOf_eq rest hne, hm1, List.nil_append]
              have hrw : rest = ((splitBlanks rest).1 ++ mid) ++
                  (scanOrphans [] (splitBlanks rest).2).2 := by
                rw [List.append_assoc, hm2, splitBlanks_append]
              rw [ho] at h
              obtain ⟨r, hr1, hr2⟩ := Option.map_eq_some'.1 h
              have hskipeq : fixLoop rest ((splitBlanks rest).1.length + mid.length)
                  false none =
                  fixLoop (scanOrphans [] (splitBlanks rest).2).2 0 false none := by
                have hlen2 : (splitBlanks rest).1.length + mid.length =
                    ((splitBlanks rest).1 ++ mid).length + 0 := by
                  simp [List.length_append]
                rw [hlen2]
                nth_rewrite 1 [hrw]
                exact fixLoop_skip ((splitBlanks rest).1 ++ mid)
                  (scanOrphans [] (splitBlanks rest).2).2 0 false none
              rw [hskipeq] at hr1
              have hlr := congrArg List.length hrw
              rw [List.length_append, List.length_append] at hlr
              have hremlen : (scanOrphans [] (splitBlanks rest).2).2.length ≤ n := by
                omega
              have hr := ih _ hremlen false none r hr1
              have hmid0 : countFences mid = 0 := by
                refine List.countP_eq_zero.2 (fun l hl => ?_)
                have := hm3 l hl
                simp [fenceMarkerLine, this]
              have hB0 : countFences (splitBlanks rest).1 = 0 := by
                refine List.countP_eq_zero.2 (fun l hl => ?_)
                have := fenceMarkerLine_of_blank l (splitBlanks_blank rest l hl)
                simp [this]
              have hrestC : countFences rest =
                  countFences (scanOrphans [] (splitBlanks rest).2).2 := by
                conv_lhs => rw [hrw]
                rw [countFences_append, countFences_append, hB0, hmid0]
                omega
              rw [← hr2, countFences_append, countFences_cons, countFences_cons,
                hmid0, hr, hrestC, hfm, fenceMarkerLine_fenceLit]
              omega
            · obtain ⟨r, hr1, hr2⟩ := Option.map_eq_some'.1 h
              rw [← hr2, countFences_cons, countFences_cons,
                ih rest hrest false none r hr1]
      · rw [fixLoop_nonfence line rest b lang (Bool.eq_false_iff.2 hf)] at h
        obtain ⟨r, hr1, hr2⟩ := Option.map_eq_some'.1 h
        rw [← hr2, countFences_cons, countFences_cons, ih rest hrest b lang r hr1]

end FixMdx

namespace FixMdx

theorem stringMk_data : ∀ (s : String), String.mk s.data = s
  | ⟨_⟩ => rfl

theorem data_stringMk (l : List Char) : (String.mk l).data = l := rfl

theorem decNumGo_zero_some (c : Char) (rest : List Char) (n k2 : Nat)
    (hm : numEntAt (c :: rest) = some (n, k2)) :
    decNumGo 0 (c :: rest) =
      if n < 1114112 then (decNumGo k2 rest).map (Char.ofNat n :: ·) else none := by
  show (match numEntAt (c :: rest) with
        | some (n, k) =>
          if n < 1114112 then (decNumGo k rest).map (Char.ofNat n :: ·) else none
        | none => (decNumGo 0 rest).map (c :: ·)) = _
  rw [hm]

theorem decNumGo_zero_none (c : Char) (rest : List Char)
    (hm : numEntAt (c :: rest) = none) :
    decNumGo 0 (c :: rest) = (decNumGo 0 rest).map (c :: ·) := by
  show (match numEntAt (c :: rest) with
        | some (n, k) =>
          if n < 1114112 then (decNumGo k rest).map (Char.ofNat n :: ·) else none
        | none => (decNumGo 0 rest).map (c :: ·)) = _
  rw [hm]

theorem hasHugeEntGo_zero_some (c : Char) (rest : List Char) (n k2 : Nat)
    (hm : numEntAt (c :: rest) = some (n, k2)) :
    hasHugeEntGo 0 (c :: rest) =
      if n < 1114112 then hasHugeEntGo k2 rest else true := by
  show (match numEntAt (c :: rest) with
        | some (n, k) => if n < 1114112 then hasHugeEntGo k rest else true
        | none => hasHugeEntGo 0 rest) = _
  rw [hm]

theorem hasHugeEntGo_zero_none (c : Char) (rest : List Char)
    (hm : numEntAt (c :: rest) = none) :
    hasHugeEntGo 0 (c :: rest) = hasHugeEntGo 0 rest := by
  show (match numEntAt (c :: rest) with
        | some (n, k) => if n < 1114112 then hasHugeEntGo k rest else true
        | none => hasHugeEntGo 0 rest) = _
  rw [hm]

theorem decNumGo_total (cs : List Char) : ∀ (k : Nat),
    hasHugeEntGo k cs = false → ∃ t, decNumGo k cs = some t := by
  induction cs with
  | nil =>
    intro k _
    cases k with
    | zero => exact ⟨[], rfl⟩
    | succ k' => exact ⟨[], rfl⟩
  | cons c rest ih =>
    intro k hk
    match k with
    | k'+1 =>
      have hs : hasHugeEntGo (k'+1) (c :: rest) = hasHugeEntGo k' rest := rfl
      have hd : decNumGo (k'+1) (c :: rest) = decNumGo k' rest := rfl
      rw [hd]
      exact ih k' (hs ▸ hk)
    | 0 =>
      cases hm : numEntAt (c :: rest) with
      | some p =>
        obtain ⟨n, k2⟩ := p
        rw [hasHugeEntGo_zero_some c rest n k2 hm] at hk
        rw [decNumGo_zero_some c rest n k2 hm]
        by_cases hn : n < 1114112
        · rw [if_pos hn] at hk
          rw [if_pos hn]
          obtain ⟨t, ht⟩ := ih k2 hk
          exact ⟨Char.ofNat n :: t, by rw [ht]; rfl⟩
        · rw [if_neg hn] at hk
          exact absurd hk (by simp)
      | none =>
        rw [hasHugeEntGo_zero_none c rest hm] at hk
        rw [decNumGo_zero_none c rest hm]
        obtain ⟨t, ht⟩ := ih 0 hk
        exact ⟨c :: t, by rw [ht]; rfl⟩

end FixMdx

namespace FixMdx

theorem startsWithL_iff (pat : List Char) : ∀ (cs : List Char),
    startsWithL pat cs = true ↔ ∃ t, cs = pat ++ t := by
  induction pat with
  | nil => intro cs; simp [startsWithL]
  | cons p ps ih =>
    intro cs
    cases cs with
    | nil =>
      constructor
      · intro h; exact absurd h (by simp [startsWithL])
      · intro ⟨t, ht⟩; exact absurd ht (by simp)
    | cons c cs' =>
      constructor
      · intro h
        simp only [startsWithL, Bool.and_eq_true, beq_iff_eq] at h
        obtain ⟨t, ht⟩ := (ih cs').1 h.2
        exact ⟨t, by rw [h.1, ht]; rfl⟩
      · intro ⟨t, ht⟩
        have h1 : c = p := by
          have := congrArg (List.head? ·) ht
          simpa using this
        have h2 : cs' = ps ++ t := by
          have := congrArg (List.tail ·) ht
          simpa using this
        simp only [startsWithL, Bool.and_eq_true, beq_iff_eq]
        exact ⟨h1.symm, (ih cs').2 ⟨t, h2⟩⟩

theorem startsWithL_append_self (pat t : List Char) :
    startsWithL pat (pat ++ t) = true :=
  (startsWithL_iff pat (pat ++ t)).2 ⟨t, rfl⟩

theorem pyFind_eq_zero (pat cs : List Char) (h : startsWithL pat cs = true) :
    pyFind pat cs = some 0 := by
  cases cs with
  | nil =>
    show (if startsWithL pat [] then some 0 else none) = some 0
    rw [if_pos h]
  | cons c rest =>
    show (if startsWithL pat (c :: rest) then some 0
          else (pyFind pat rest).map (· + 1)) = some 0
    rw [if_pos h]

theorem pyFind_le (pat : List Char) : ∀ (cs : List Char) (i : Nat),
    pyFind pat cs = some i → i + pat.length ≤ cs.length := by
  intro cs
  induction cs with
  | nil =>
    intro i h
    by_cases hs : startsWithL pat [] = true
    · obtain ⟨t, ht⟩ := (startsWithL_iff pat []).1 hs
      have hp : pat = [] := by
        cases pat with
        | nil => rfl
        | cons p ps => exact absurd ht (by simp)
      have h0 : i = 0 := by
        have h' : (if startsWithL pat [] then some 0 else none) = some i := h
        rw [if_pos hs] at h'
        exact (Option.some.inj h').symm
      simp [h0, hp]
    · have h' : (if startsWithL pat [] then some 0 else none) = some i := h
      rw [if_neg hs] at h'
      exact absurd h' (by simp)
  | cons c rest ih =>
    intro i h
    have h' : (if startsWithL pat (c :: rest) then some 0
               else (pyFind pat rest).map (· + 1)) = some i := h
    by_cases hs : startsWithL pat (c :: rest) = true
    · rw [if_pos hs] at h'
      have h0 : i = 0 := (Option.some.inj h').symm
      obtain ⟨t, ht⟩ := (startsWithL_iff pat (c :: rest)).1 hs
      have hlt : (c :: rest).length = pat.length + t.length := by
        rw [ht, List.length_append]
      rw [h0, Nat.zero_add, hlt]
      omega
    · rw [if_neg hs] at h'
      obtain ⟨j, hj1, hj2⟩ := Option.map_eq_some'.1 h'
      have := ih j hj1
      have hlen : (c :: rest).length = rest.length + 1 := by simp
      omega

theorem startsWithL_shorten (pt : List Char) : ∀ (ys b : List Char),
    startsWithL pt (ys ++ b) = true → pt.length ≤ ys.length →
    startsWithL pt ys = true := by
  induction pt with
  | nil => intro ys b _ _; rfl
  | cons p ps ih =>
    intro ys b h hlen
    cases ys with
    | nil => simp at hlen
    | cons y ys' =>
      simp only [List.cons_append, startsWithL, Bool.and_eq_true] at h ⊢
      exact ⟨h.1, ih ys' b h.2 (by simpa using hlen)⟩

theorem startsWithL_of_take (pt : List Char) : ∀ (ys : List Char) (m : Nat),
    startsWithL pt (ys.take m) = true → startsWithL pt ys = true := by
  induction pt with
  | nil => intro ys m _; rfl
  | cons p ps ih =>
    intro ys m h
    cases ys with
    | nil => simp at h; exact absurd h (by simp [startsWithL])
    | cons y ys' =>
      cases m with
      | zero => exact absurd h (by simp [startsWithL])
      | succ m' =>
        simp only [List.take_succ_cons, startsWithL, Bool.and_eq_true] at h ⊢
        exact ⟨h.1, ih ys' m' h.2⟩

theorem pyFind_stable (pat : List Char) (hpat : pat ≠ []) :
    ∀ (cs : List Char) (i : Nat), pyFind pat cs = some i →
    ∀ (b : List Char), pyFind pat (cs.take (i + pat.length) ++ b) = some i := by
  intro cs
  induction cs with
  | nil =>
    intro i h b
    have hs : startsWithL pat [] = false := by
      cases pat with
      | nil => exact absurd rfl hpat
      | cons p ps => rfl
    have h' : (if startsWithL pat [] then some 0 else none) = some i := h
    rw [hs] at h'
    exact absurd h' (by simp)
  | cons c rest ih =>
    intro i h b
    have h' : (if startsWithL pat (c :: rest) then some 0
               else (pyFind pat rest).map (· + 1)) = some i := h
    by_cases hs : startsWithL pat (c :: rest) = true
    · rw [if_pos hs] at h'
      have h0 : i = 0 := (Option.some.inj h').symm
      subst h0
      obtain ⟨t, ht⟩ := (startsWithL_iff pat (c :: rest)).1 hs
      rw [ht, Nat.zero_add, List.take_append_eq_append_take,
        List.take_of_length_le (Nat.le_refl _), Nat.sub_self, List.take_zero,
        List.append_nil]
      exact pyFind_eq_zero pat (pat ++ b) (startsWithL_append_self pat b)
    · rw [if_neg hs] at h'
      obtain ⟨j, hj1, hj2⟩ := Option.map_eq_some'.1 h'
      subst hj2
      have htake : (c :: rest).take (j + 1 + pat.length) =
          c :: rest.take (j + pat.length) := by
        have : j + 1 + pat.length = (j + pat.length) + 1 := by omega
        rw [this, List.take_succ_cons]
      rw [htake, List.cons_append]
      have hs2 : startsWithL pat (c :: (rest.take (j + pat.length) ++ b)) = false := by
        cases hval : startsWithL pat (c :: (rest.take (j + pat.length) ++ b))
        · rfl
        · exfalso
          obtain ⟨t, ht⟩ := (startsWithL_iff pat _).1 hval
          cases pat with
          | nil => exact hpat rfl
          | cons p ps =>
            have hc : c = p := by
              have := congrArg (List.head? ·) ht
              simpa using this
            have hrest : rest.take (j + (p :: ps).length) ++ b = ps ++ t := by
              have := congrArg (List.tail ·) ht
              simpa using this
            have hle := pyFind_le (p :: ps) rest j hj1
            have hopsle : ps.length ≤ (rest.take (j + (p :: ps).length)).length := by
              rw [List.length_take]
              refine Nat.le_min.2 ⟨by simp only [List.length_cons]; omega, ?_⟩
              simp only [List.length_cons] at hle ⊢
              omega
            have hps : startsWithL ps (rest.take (j + (p :: ps).length)) = true := by
              refine startsWithL_shorten ps _ b ?_ hopsle
              rw [hrest]
              exact startsWithL_append_self ps t
            have hps2 : startsWithL ps rest = true :=
              startsWithL_of_take ps rest _ hps
            have : startsWithL (p :: ps) (c :: rest) = true := by
              simp only [startsWithL, Bool.and_eq_true, beq_iff_eq]
              exact ⟨hc.symm, hps2⟩
            exact hs this
      show (if startsWithL pat (c :: (rest.take (j + pat.length) ++ b)) then some 0
            else (pyFind pat (rest.take (j + pat.length) ++ b)).map (· + 1)) =
          some (j + 1)
      rw [hs2]
      show (pyFind pat (rest.take (j + pat.length) ++ b)).map (· + 1) = some (j + 1)
      rw [ih j hj1 b]
      rfl

end FixMdx

namespace FixMdx

theorem split_frontmatter_eq (content : String) :
    split_frontmatter content =
      (if !startsWithL "---".data content.data then ("", content)
       else match pyFind "\n---".data (content.data.drop 3) with
       | none => ("", content)
       | some idx =>
         (String.mk (content.data.take (3 + idx + 4)),
          String.mk (content.data.drop (3 + idx + 4)))) := rfl

theorem split_frontmatter_inv (content fm body : String)
    (h : split_frontmatter content = (fm, body)) (hne : fm ≠ "") :
    ∃ idx, startsWithL "---".data content.data = true ∧
      pyFind "\n---".data (content.data.drop 3) = some idx ∧
      fm = String.mk (content.data.take (3 + idx + 4)) ∧
      body = String.mk (content.data.drop (3 + idx + 4)) := by
  rw [split_frontmatter_eq] at h
  by_cases hsw : startsWithL "---".data content.data = true
  · rw [if_neg (by simp [hsw])] at h
    cases hfind : pyFind "\n---".data (content.data.drop 3) with
    | none =>
      rw [hfind] at h
      have hfm : "" = fm := congrArg Prod.fst h
      exact absurd hfm.symm hne
    | some idx =>
      rw [hfind] at h
      have h2 : (String.mk (content.data.take (3 + idx + 4)),
          String.mk (content.data.drop (3 + idx + 4))) = (fm, body) := h
      exact ⟨idx, hsw, rfl, (congrArg Prod.fst h2).symm, (congrArg Prod.snd h2).symm⟩
  · rw [if_pos (by simp [Bool.eq_false_iff.2 hsw])] at h
    have hfm : "" = fm := congrArg Prod.fst h
    exact absurd hfm.symm hne

theorem split_frontmatter_stable (content fm body : String)
    (h : split_frontmatter content = (fm, body)) (hne : fm ≠ "") (tb : String) :
    (split_frontmatter (fm ++ tb)).1 = fm := by
  obtain ⟨idx, hsw, hfind, hfm, _⟩ := split_frontmatter_inv content fm body h hne
  have hlen4 : ("\n---".data).length = 4 := rfl
  have hlen : idx + 4 ≤ (content.data.drop 3).length := by
    have := pyFind_le "\n---".data (content.data.drop 3) idx hfind
    rwa [hlen4] at this
  obtain ⟨t, ht⟩ := (startsWithL_iff "---".data content.data).1 hsw
  have hcs3 : 3 ≤ content.data.length := by
    rw [ht, List.length_append]
    simp
  have hecs : 3 + idx + 4 ≤ content.data.length := by
    rw [List.length_drop] at hlen
    omega
  have hdata : (fm ++ tb).data = content.data.take (3 + idx + 4) ++ tb.data := by
    rw [String.data_append, hfm, data_stringMk]
  have hlen_take : (content.data.take (3 + idx + 4)).length = 3 + idx + 4 := by
    rw [List.length_take]
    exact min_eq_left hecs
  have hle3 : ("---".data).length ≤ 3 + idx + 4 := by
    rw [show ("---".data).length = 3 from rfl]
    omega
  have hsw2 : startsWithL "---".data ((fm ++ tb).data) = true := by
    rw [hdata, ht, List.take_append_eq_append_take,
      List.take_of_length_le hle3, List.append_assoc]
    exact startsWithL_append_self "---".data _
  have hdrop : ((fm ++ tb).data).drop 3 =
      (content.data.drop 3).take (idx + 4) ++ tb.data := by
    rw [hdata, List.drop_append_eq_append_drop, hlen_take,
      Nat.sub_eq_zero_of_le (by omega), List.drop_zero, List.drop_take]
    have h34 : 3 + idx + 4 - 3 = idx + 4 := by omega
    rw [h34]
  have hfind2 : pyFind "\n---".data ((fm ++ tb).data.drop 3) = some idx := by
    rw [hdrop]
    have := pyFind_stable "\n---".data (by simp) (content.data.drop 3) idx hfind tb.data
    rwa [hlen4] at this
  rw [split_frontmatter_eq, if_neg (by rw [hsw2]; simp), hfind2]
  show String.mk ((fm ++ tb).data.take (3 + idx + 4)) = fm
  rw [hdata, List.take_append_eq_append_take, hlen_take, Nat.sub_self,
    List.take_zero, List.append_nil, List.take_of_length_le (le_of_eq hlen_take),
    ← hfm]

end FixMdx

namespace FixMdx

theorem string_empty_append : ∀ (s : String), "" ++ s = s
  | ⟨_⟩ => rfl

theorem stringMk_append (a b : List Char) :
    String.mk a ++ String.mk b = String.mk (a ++ b) := rfl

end FixMdx

namespace FixDocLinks

open FixMdx

theorem subPkgGo_zero_eq (c : Char) (rest : List Char) :
    subPkgGo 0 (c :: rest) =
      (if c == ']' && startsWithL "(/pkg/".data rest then
        if !((rest.drop 6).takeWhile (fun x => x != ')')).isEmpty &&
           ((rest.drop 6).drop ((rest.drop 6).takeWhile (fun x => x != ')')).length).head?
             == some ')' then
          ghPkg ++ (rest.drop 6).takeWhile (fun x => x != ')') ++ ')' ::
            subPkgGo (6 + ((rest.drop 6).takeWhile (fun x => x != ')')).length + 1) rest
        else c :: subPkgGo 0 rest
      else c :: subPkgGo 0 rest) := rfl

theorem subPkgGo_id (cs : List Char)
    (h : containsSub "](/pkg/".data cs = false) : subPkgGo 0 cs = cs := by
  induction cs with
  | nil => rfl
  | cons c rest ih =>
    have hfind : pyFind "](/pkg/".data (c :: rest) = none := by
      unfold containsSub at h
      exact Option.not_isSome_iff_eq_none.1 (by rw [h]; simp)
    have hfind' : (if startsWithL "](/pkg/".data (c :: rest) then some 0
        else (pyFind "](/pkg/".data rest).map (· + 1)) = none := hfind
    have hsw : startsWithL "](/pkg/".data (c :: rest) = false := by
      cases hv : startsWithL "](/pkg/".data (c :: rest)
      · rfl
      · rw [if_pos hv] at hfind'
        exact absurd hfind' (by simp)
    have hrest : containsSub "](/pkg/".data rest = false := by
      rw [if_neg (by rw [hsw]; simp)] at hfind'
      unfold containsSub
      rw [Option.map_eq_none'.1 hfind']
      rfl
    rw [subPkgGo_zero_eq]
    have hcond : (c == ']' && startsWithL "(/pkg/".data rest) = false := by
      have hexp : startsWithL "](/pkg/".data (c :: rest) =
          ((']' : Char) == c && startsWithL "(/pkg/".data rest) := rfl
      cases hc : c == ']'
      · simp
      · have hceq : c = ']' := beq_iff_eq.1 hc
        subst hceq
        rw [hexp] at hsw
        rw [show ((']' : Char) == ']') = true from rfl, Bool.true_and] at hsw
        rw [Bool.true_and, hsw]
    rw [hcond]
    show c :: subPkgGo 0 rest = c :: rest
    rw [ih hrest]

theorem applyPkgRule_id (s : String)
    (h : containsSub "](/pkg/".data s.data = false) : applyPkgRule s = s := by
  unfold applyPkgRule
  rw [subPkgGo_id s.data h, stringMk_data]

end FixDocLinks

/-! # Claim theorems -/

namespace FixMdx

/-- Claim C1, counterexample: fix_fragmented_blocks is not idempotent.
On the document fence-go, a, close, brace, blank, brace, the first run
merges only the first brace (the scan stops at the blank line), leaving a
fresh closing fence followed by a blank line and the second brace, which
the second run then merges as well, so running the scanner twice differs
from running it once. -/
theorem scan_twice_differs_counterexample :
    (fix_fragmented_blocks "```go\na\n```\n\x7d\n\n\x7d").bind fix_fragmented_blocks ≠
      fix_fragmented_blocks "```go\na\n```\n\x7d\n\n\x7d" := by decide

/-- Claim C1, amended: the fence scanner is not idempotent in general (a
second run can merge a further orphan run exposed behind the fresh
closing fence); it is the identity, and hence idempotent, on every
document that contains no fence-marker line. -/
theorem fix_fragmented_blocks_identity_no_fences (s : String)
    (h : ∀ l ∈ splitLinesL s.data, startsWithL "```".data (pyStrip l) = false) :
    fix_fragmented_blocks s = some s ∧
    (fix_fragmented_blocks s).bind fix_fragmented_blocks =
      fix_fragmented_blocks s := by
  have h1 : fix_fragmented_blocks s = some s := by
    unfold fix_fragmented_blocks
    rw [fixLoop_no_fence (splitLinesL s.data) h false none]
    show some (String.mk (joinLinesL (splitLinesL s.data))) = some s
    rw [joinLinesL_splitLinesL, stringMk_data]
  refine ⟨h1, ?_⟩
  rw [h1]
  show fix_fragmented_blocks s = some s
  exact h1

/-- Witness for the amended claim C1 at a concrete fence-free document. -/
theorem fix_fragmented_blocks_identity_no_fences_witness :
    fix_fragmented_blocks "hello\nworld" = some "hello\nworld" ∧
    (fix_fragmented_blocks "hello\nworld").bind fix_fragmented_blocks =
      fix_fragmented_blocks "hello\nworld" :=
  fix_fragmented_blocks_identity_no_fences "hello\nworld" (by decide)

/-- Claim C2, counterexample: decode_html_entities is not total.  On the
numeric entity with value 0x110000 the source calls chr out of range and
raises ValueError (modelled by none). -/
theorem decode_out_of_range_counterexample :
    decode_html_entities "&#1114112;" = none := by decide

/-- Claim C2, amended: decode_html_entities returns a string on every
input whose table-substituted text contains no numeric entity with value
at or above 0x110000 (on such an entity Python's chr raises ValueError
and the exception propagates). -/
theorem decode_html_entities_total_in_range (s : String)
    (h : hasHugeEntGo 0 (applyEntityTable s.data) = false) :
    ∃ t, decode_html_entities s = some t := by
  obtain ⟨t, ht⟩ := decNumGo_total (applyEntityTable s.data) 0 h
  refine ⟨String.mk t, ?_⟩
  unfold decode_html_entities
  rw [ht]
  rfl

/-- Witness for the amended claim C2: the spec's entity round-trip input
decodes successfully (and to the expected text). -/
theorem decode_html_entities_total_in_range_witness :
    hasHugeEntGo 0 (applyEntityTable ("&#91;a&#123;b&#125;c&#93;" : String).data)
      = false ∧
    (∃ t, decode_html_entities "&#91;a&#123;b&#125;c&#93;" = some t) ∧
    decode_html_entities "&#91;a&#123;b&#125;c&#93;" = some "[a\x7bb\x7dc]" :=
  ⟨by decide,
   decode_html_entities_total_in_range "&#91;a&#123;b&#125;c&#93;" (by decide),
   by decide⟩

/-- Claim C3, counterexample: the transformation does not guarantee an
even number of fence-marker lines.  This input contains a well-formed
fence pair, passes through the body transformation unchanged, and has
three fence-marker lines (a dangling opening fence survives). -/
theorem fence_count_parity_counterexample :
    hasWellFormedPair (splitLinesL ("```go\na\n```\nx\n```go\nb" : String).data)
      = true ∧
    transformBody "```go\na\n```\nx\n```go\nb" =
      some "```go\na\n```\nx\n```go\nb" ∧
    countFences (splitLinesL ("```go\na\n```\nx\n```go\nb" : String).data) % 2
      = 1 := by
  refine ⟨by decide, by decide, by decide⟩

/-- Claim C3, amended: the fence scanner preserves the exact number of
fence-marker lines (it neither creates nor removes fences, it only moves
a closing fence past merged orphan lines); evenness of the output count
is not guaranteed. -/
theorem fix_fragmented_blocks_preserves_fence_count (s out : String)
    (h : fix_fragmented_blocks s = some out) :
    countFences (splitLinesL out.data) = countFences (splitLinesL s.data) := by
  unfold fix_fragmented_blocks at h
  obtain ⟨R, hR, hout⟩ := Option.map_eq_some'.1 h
  have hdata : out.data = joinLinesL R := by rw [← hout]
  have hRne : R ≠ [] := by
    cases hsp : splitLinesL s.data with
    | nil => exact absurd hsp (splitLinesL_ne_nil s.data)
    | cons a as =>
      rw [hsp] at hR
      exact fixLoop_out_ne_nil a as false none R hR
  have hnonl : ∀ l ∈ R, '\n' ∉ l := by
    intro l hl
    rcases fixLoop_mem (splitLinesL s.data) 0 false none R hR l hl with h1 | h1
    · exact splitLinesL_no_newline s.data l h1
    · rw [h1]
      decide
  rw [hdata, splitLinesL_joinLinesL R hRne hnonl]
  exact fixLoop_count (splitLinesL s.data).length (splitLinesL s.data)
    (Nat.le_refl _) false none R hR

/-- Witness for the amended claim C3 at a concrete merging input (the
scanner moves the closing fence but the fence count is preserved). -/
theorem fix_fragmented_blocks_preserves_fence_count_witness :
    fix_fragmented_blocks "```go\na\n```\n\n\x7d" = some "```go\na\n\x7d\n```" ∧
    countFences (splitLinesL ("```go\na\n\x7d\n```" : String).data) =
      countFences (splitLinesL ("```go\na\n```\n\n\x7d" : String).data) :=
  ⟨by decide,
   fix_fragmented_blocks_preserves_fence_count "```go\na\n```\n\n\x7d"
     "```go\na\n\x7d\n```" (by decide)⟩

/-- Claim C4: orphan-merge scenario.  On the document consisting of an
opening fence tagged go, one code line, an empty closing fence, one blank
line and a lone closing brace, the scanner merges the brace into the
block before a fresh closing fence, yielding a single fence pair holding
exactly the two code lines. -/
theorem orphan_merge_scenario :
    fix_fragmented_blocks "```go\nfunc f() \x7b\n```\n\n\x7d" =
      some "```go\nfunc f() \x7b\n\x7d\n```" := by decide

/-- Claim C5: orphan-run loosening.  During orphan lookahead, once the
accumulated run is non-empty, any subsequent non-blank line that does not
start a heading or fence marker and is not classified as markdown text is
appended to the run and scanning continues, regardless of the
code-continuation heuristic. -/
theorem orphan_run_loosening (acc : List Line) (l : Line) (ls : List Line)
    (hacc : acc ≠ []) (hnb : (pyStrip l).isEmpty = false)
    (hh : startsWithL "#".data (pyStrip l) = false)
    (hf : startsWithL "```".data (pyStrip l) = false)
    (hmd : is_markdown_text l = false) :
    scanOrphans acc (l :: ls) = scanOrphans (acc ++ [l]) ls := by
  have h1 : acc.isEmpty = false := by
    cases he : acc.isEmpty
    · rfl
    · exact absurd (List.isEmpty_iff.1 he) hacc
  show (if startsWithL "#".data (pyStrip l) || startsWithL "```".data (pyStrip l)
        then (acc, l :: ls)
        else if is_markdown_text l then (acc, l :: ls)
        else if is_code_continuation l || (!acc.isEmpty && !(pyStrip l).isEmpty)
        then scanOrphans (acc ++ [l]) ls
        else (acc, l :: ls)) = scanOrphans (acc ++ [l]) ls
  rw [if_neg (by rw [hh, hf]; simp), if_neg (by rw [hmd]; simp),
    if_pos (by rw [h1, hnb]; simp)]

/-- Witness for claim C5 at a concrete line that fails the
code-continuation heuristic yet is appended because the run is already
non-empty. -/
theorem orphan_run_loosening_witness :
    is_code_continuation "hello \x7b\x7d".data = false ∧
    scanOrphans ["x".data] ["hello \x7b\x7d".data] =
      scanOrphans ["x".data, "hello \x7b\x7d".data] [] :=
  ⟨by decide,
   orphan_run_loosening ["x".data] "hello \x7b\x7d".data [] (by simp) (by decide)
     (by decide) (by decide) (by decide)⟩

/-- Claim C6: frontmatter invariance.  For any document with a valid
frontmatter block, the in-memory transformation of fix_markdown_file
yields output whose frontmatter is byte-identical to the input's: the
output still splits to exactly the same frontmatter. -/
theorem frontmatter_invariance (content fm body out : String)
    (hsplit : split_frontmatter content = (fm, body))
    (hne : fm ≠ "")
    (hfix : fix_markdown_content content = some out) :
    (split_frontmatter out).1 = fm := by
  unfold fix_markdown_content at hfix
  obtain ⟨tb, htb, hout⟩ := Option.map_eq_some'.1 hfix
  rw [← hout]
  have h1 : (split_frontmatter content).1 = fm := by rw [hsplit]
  rw [h1]
  exact split_frontmatter_stable content fm body hsplit hne tb

/-- Witness for claim C6 at a concrete document with frontmatter. -/
theorem frontmatter_invariance_witness :
    split_frontmatter "---\na: b\n---\nhello" = ("---\na: b\n---", "\nhello") ∧
    fix_markdown_content "---\na: b\n---\nhello" = some "---\na: b\n---\nhello" ∧
    (split_frontmatter "---\na: b\n---\nhello").1 = "---\na: b\n---" :=
  ⟨by decide, by decide,
   frontmatter_invariance "---\na: b\n---\nhello" "---\na: b\n---" "\nhello"
     "---\na: b\n---\nhello" (by decide) (by decide) (by decide)⟩

/-- Claim C7: the fence scanner never raises.  For every input string,
fix_fragmented_blocks terminates and returns a string (in particular the
one indexing operation of the source, rest.split()[0], is guarded so that
its IndexError is unreachable). -/
theorem fix_fragmented_blocks_total (s : String) :
    ∃ out, fix_fragmented_blocks s = some out := by
  obtain ⟨r, hr⟩ := fixLoop_total (splitLinesL s.data) 0 false none
  refine ⟨String.mk (joinLinesL r), ?_⟩
  unfold fix_fragmented_blocks
  rw [hr]
  rfl

/-- Claim C10: split_frontmatter is a lossless partition — frontmatter
and body always concatenate back to the input — and whenever the input
does not start with the marker, or has no later newline-marker, the
frontmatter is empty and the whole content is body. -/
theorem split_frontmatter_lossless (content : String) :
    (split_frontmatter content).1 ++ (split_frontmatter content).2 = content ∧
    ((startsWithL "---".data content.data = false ∨
      pyFind "\n---".data (content.data.drop 3) = none) →
      split_frontmatter content = ("", content)) := by
  constructor
  · rw [split_frontmatter_eq]
    by_cases hsw : startsWithL "---".data content.data = true
    · rw [if_neg (by rw [hsw]; simp)]
      cases hfind : pyFind "\n---".data (content.data.drop 3) with
      | none =>
        show "" ++ content = content
        exact string_empty_append content
      | some idx =>
        show String.mk (content.data.take (3 + idx + 4)) ++
          String.mk (content.data.drop (3 + idx + 4)) = content
        rw [stringMk_append, List.take_append_drop, stringMk_data]
    · rw [if_pos (by rw [Bool.eq_false_iff.2 hsw]; simp)]
      show "" ++ content = content
      exact string_empty_append content
  · intro hor
    rw [split_frontmatter_eq]
    rcases hor with hsw | hfind
    · rw [if_pos (by rw [hsw]; simp)]
    · by_cases hsw : startsWithL "---".data content.data = true
      · rw [if_neg (by rw [hsw]; simp), hfind]
      · rw [if_pos (by rw [Bool.eq_false_iff.2 hsw]; simp)]

/-- Witness for claim C10 at a concrete input with no frontmatter. -/
theorem split_frontmatter_lossless_witness :
    (split_frontmatter "hello").1 ++ (split_frontmatter "hello").2 = "hello" ∧
    split_frontmatter "hello" = ("", "hello") :=
  ⟨(split_frontmatter_lossless "hello").1,
   (split_frontmatter_lossless "hello").2 (Or.inl (by decide))⟩

end FixMdx

namespace FixDocLinks

open FixMdx

/-- Claim C8, counterexample: the /pkg/ link-rewrite rule is not
idempotent.  The capture class admits brackets and parentheses, so a
matched path may itself contain a /pkg/ link source; the first pass
rewrites the outer span and leaves an inner one that only the second
pass rewrites. -/
theorem pkg_rule_not_idempotent :
    applyPkgRule (applyPkgRule "](/pkg/a](/pkg/b)") ≠
      applyPkgRule "](/pkg/a](/pkg/b)" := by decide

/-- Claim C8, amended: the rule performs the exact documented mapping,
and a second application changes nothing provided the first output
contains no residual /pkg/ link source (which can only remain when a
matched path itself contained one). -/
theorem pkg_rule_mapping_and_conditional_idempotence :
    applyPkgRule "](/pkg/foo/bar.go)" =
      "](https://github.com/lookatitude/beluga-ai/blob/main/pkg/foo/bar.go)" ∧
    ∀ s : String, containsSub "](/pkg/".data (applyPkgRule s).data = false →
      applyPkgRule (applyPkgRule s) = applyPkgRule s := by
  constructor
  · decide
  · intro s h
    exact applyPkgRule_id (applyPkgRule s) h

/-- Witness for the amended claim C8 at a concrete document. -/
theorem pkg_rule_conditional_idempotence_witness :
    containsSub "](/pkg/".data
      (applyPkgRule "see ](/pkg/foo/bar.go) end").data = false ∧
    applyPkgRule (applyPkgRule "see ](/pkg/foo/bar.go) end") =
      applyPkgRule "see ](/pkg/foo/bar.go) end" :=
  ⟨by decide,
   pkg_rule_mapping_and_conditional_idempotence.2 "see ](/pkg/foo/bar.go) end"
     (by decide)⟩

/-- Claim C9: per-file read-error recovery.  When the file read raises,
fix_file returns 0, leaves the aggregate counters untouched and writes
nothing, so processing of subsequent files continues. -/
theorem fix_file_read_error_recovery (applyRules : String → String × Nat)
    (path err : String) (st : LinkFixState) :
    fix_file applyRules path (Except.error err) st = (0, st, none) := rfl

end FixDocLinks
